import Mathlib

/-!
Verification of the ftp-scout repository: a resilient FTP connection wrapper
(`robust_ftp.py`), three directory-listing strategies (`mlsd_handler.py`,
`dir_handler.py`, `fallback_handler.py`), a strategy selector
(`ftp_strategy.py`, `main.py`) and a breadth-first traversal generator
(`main.py`).  Python strings are embedded as `List Char`; the outcomes of
network calls (which succeed or raise exceptions) are supplied as explicit
oracles, so every definition below is an executable translation of the
corresponding Python control flow.
-/

namespace FtpScout

abbrev Path := List Char

/-- Python whitespace characters recognised by `str.split()` (ASCII range,
which is what FTP listing lines contain). -/
def isPySpace (c : Char) : Bool :=
  c = ' ' || c = '\t' || c = '\n' || c = '\x0d' || c = '\x0b' || c = '\x0c'

/-- CPython `str.split(None, budget)` splitting loop: skip whitespace; while
the split budget lasts take a maximal non-whitespace word; once the budget is
exhausted the rest of the string (leading whitespace skipped, trailing
whitespace kept) becomes the final element. -/
def splitWsGo (budget : Nat) (s : Path) : List Path :=
  match budget with
  | 0 =>
    match s.dropWhile isPySpace with
    | [] => []
    | c :: rest => [c :: rest]
  | b + 1 =>
    match s.dropWhile isPySpace with
    | [] => []
    | c :: rest =>
      ((c :: rest).takeWhile (fun x => !isPySpace x)) ::
        splitWsGo b ((c :: rest).dropWhile (fun x => !isPySpace x))

/-- `line.split(None, 8)` from `dir_handler.py` line 32. -/
def splitWs8 (line : Path) : List Path := splitWsGo 8 line

/-- Whether `pat` is a prefix of `s` (Python `str.startswith` on char lists). -/
def isPre : Path → Path → Bool
  | [], _ => true
  | _ :: _, [] => false
  | a :: as, b :: bs => a = b && isPre as bs

/-- Whether `pat` occurs as a contiguous subsequence of `s`
(Python `pat in s`). -/
def containsSeq (pat : Path) : Path → Bool
  | [] => isPre pat []
  | c :: cs => isPre pat (c :: cs) || containsSeq pat cs

/-- The characters of `s` strictly before the first occurrence of `pat`
(`s.split(pat)[0]` when `pat` occurs in `s`; all of `s` otherwise). -/
def takeBeforeSep (pat : Path) : Path → Path
  | [] => []
  | c :: cs => if isPre pat (c :: cs) then [] else c :: takeBeforeSep pat cs

/-- The symlink arrow `" -> "` from `dir_handler.py` line 43. -/
def arrowSep : Path := " -> ".toList

/-- `dir_handler.py` lines 43-44: if the filename contains `" -> "`, keep only
the text before it (`filename.split(" -> ")[0]`). -/
def extractName (tok : Path) : Path :=
  if containsSeq arrowSep tok then takeBeforeSep arrowSep tok else tok

/-- Python `permissions.startswith("d")`. -/
def startsWithChar (c : Char) : Path → Bool
  | [] => false
  | x :: _ => x = c

/-- One iteration of the line loop of `DIRStrategy.get_directory_contents`
(`dir_handler.py` lines 26-49): skip blank lines, split into at most 9
whitespace-separated tokens, discard lines with fewer than 4 tokens, read the
directory flag from the first token, the filename from the last token
(dropping a symlink arrow), and skip `.` and `..`.  `none` means the line
contributes no entry. -/
def parseDirLine (line : Path) : Option (Path × Bool) :=
  if (line.dropWhile isPySpace) = [] then none
  else
    let parts := splitWs8 line
    if parts.length < 4 then none
    else
      match parts.head?, parts.getLast? with
      | some p0, some pl =>
        let filename := extractName pl
        if filename = ['.'] ∨ filename = ['.', '.'] then none
        else some (filename, startsWithChar 'd' p0)
      | _, _ => none

/-- The whole line loop of `DIRStrategy.get_directory_contents`: each raw line
contributes at most one `(filename, is_dir)` entry, in order. -/
def dirContents (lines : List Path) : List (Path × Bool) :=
  lines.filterMap parseDirLine

/-! ### NameProbe (fallback) strategy, `fallback_handler.py` lines 18-33

The probe issues `cwd(item)` and `cwd("..")`, each of which either succeeds or
raises.  A run is therefore determined by the trace of per-item call outcomes:
for each listed name, whether `cwd(item)` succeeds and whether the subsequent
`cwd("..")` succeeds. -/

/-- The loop body of `FallbackStrategy.get_directory_contents` over the names
returned by `nlst()`, given each name together with the outcomes of its two
probe calls (`enterOk` = `cwd(item)` succeeds, `backOk` = `cwd("..")`
succeeds).  Mirrors the Python `try`/`except`: a successful `cwd(item)`
appends `(item, True)` at once; if `cwd("..")` then raises, the handler
appends `(item, False)` as well. -/
def fallbackEntries : List (Path × Bool × Bool) → List (Path × Bool)
  | [] => []
  | (n, enterOk, backOk) :: rest =>
    if n = ['.'] ∨ n = ['.', '.'] then fallbackEntries rest
    else if enterOk then
      if backOk then (n, true) :: fallbackEntries rest
      else (n, true) :: (n, false) :: fallbackEntries rest
    else (n, false) :: fallbackEntries rest

/-- What claim C6 asserts the fallback produces: exactly one entry per
non-dot name, classified a directory iff both probe calls succeed. -/
def fallbackClaimed (trace : List (Path × Bool × Bool)) : List (Path × Bool) :=
  trace.filterMap fun it =>
    if it.1 = ['.'] ∨ it.1 = ['.', '.'] then none
    else some (it.1, it.2.1 && it.2.2)

/-- The per-name contribution of the fallback loop, as the code actually
computes it. -/
def fallbackItem (it : Path × Bool × Bool) : List (Path × Bool) :=
  if it.1 = ['.'] ∨ it.1 = ['.', '.'] then []
  else if it.2.1 then
    if it.2.2 then [(it.1, true)]
    else [(it.1, true), (it.1, false)]
  else [(it.1, false)]

/-- Concatenation of the per-name contributions over a probe trace. -/
def fallbackFlat : List (Path × Bool × Bool) → List (Path × Bool)
  | [] => []
  | it :: rest => fallbackItem it ++ fallbackFlat rest

/-! ### Strategy selection, `main.py` lines 221-233

`get_directory_contents_mlsd` and `get_directory_contents_dir` return `None`
on failure and a (possibly empty) list on success; the probe results are
embedded as `Option` values.  The fallback strategy is never probed: it is
the residual case. -/

inductive Method where
  | mlsd
  | dir
  | fallback
deriving DecidableEq

/-- `main.py` lines 222-233: probe MLSD, on `None` probe DIR, on `None` fix
the fallback method without probing it. -/
def selectMethod (probeMlsd probeDir : Option (List (Path × Bool))) : Method :=
  match probeMlsd with
  | some _ => Method.mlsd
  | none =>
    match probeDir with
    | some _ => Method.dir
    | none => Method.fallback

/-- What claim C7 asserts selection does: probe all three strategies in
preference order and fix the first whose probe returns non-failure, with no
selection at all when all three probes fail. -/
def claimedSelect (probeMlsd probeDir probeFallback : Option (List (Path × Bool))) :
    Option Method :=
  match probeMlsd with
  | some _ => some Method.mlsd
  | none =>
    match probeDir with
    | some _ => some Method.dir
    | none =>
      match probeFallback with
      | some _ => some Method.fallback
      | none => none

/-! ### Connection: `connect`, `robust_ftp.py` lines 31-52

Each attempt either succeeds, raises a transient error (`ConnectionError`,
`socket.timeout`, `socket.error`, `error_temp`) or raises any other
(permanent) exception.  A run is determined by the oracle giving the outcome
of each attempt number. -/

inductive AttemptOutcome where
  | success
  | transient
  | permanent
deriving DecidableEq

inductive ConnResult where
  | ok
  | transientErr
  | permanentErr
deriving DecidableEq

/-- Observable trace of one `connect` call: how many attempts were made, the
argument of each `time.sleep` between consecutive attempts, and how the call
ended. -/
structure ConnectRun where
  attempts : Nat
  delays : List Nat
  result : ConnResult
deriving DecidableEq

/-- The `for attempt in range(max_retries + 1)` loop of `connect`: on success
return; on a transient error re-raise when `attempt == max_retries` and
otherwise `time.sleep(2 ** attempt)` and continue; on any other error
re-raise at once.  `fuel` is `max_retries - attempt`. -/
def connectLoop (oracle : Nat → AttemptOutcome) (attempt fuel : Nat) : ConnectRun :=
  match fuel with
  | 0 =>
    match oracle attempt with
    | AttemptOutcome.success => ⟨1, [], ConnResult.ok⟩
    | AttemptOutcome.permanent => ⟨1, [], ConnResult.permanentErr⟩
    | AttemptOutcome.transient => ⟨1, [], ConnResult.transientErr⟩
  | f + 1 =>
    match oracle attempt with
    | AttemptOutcome.success => ⟨1, [], ConnResult.ok⟩
    | AttemptOutcome.permanent => ⟨1, [], ConnResult.permanentErr⟩
    | AttemptOutcome.transient =>
      let r := connectLoop oracle (attempt + 1) f
      ⟨r.attempts + 1, 2 ^ attempt :: r.delays, r.result⟩

/-- `RobustFTPConnection.connect(max_retries)`. -/
def connectSim (oracle : Nat → AttemptOutcome) (maxRetries : Nat) : ConnectRun :=
  connectLoop oracle 0 maxRetries

/-- An environment in which every connection attempt fails transiently. -/
def allTransient : Nat → AttemptOutcome := fun _ => AttemptOutcome.transient

/-! ### Connection: `close`, `robust_ftp.py` lines 102-111 -/

/-- The underlying `ftplib` session; all the model needs to know about it is
whether its `quit()` raises. -/
structure FTPSession where
  quitRaises : Bool
deriving DecidableEq

/-- Connection state: credentials plus the optional session handle
(`self.ftp`). -/
structure Conn where
  host : Path
  username : Path
  password : Path
  ftp : Option FTPSession
deriving DecidableEq

/-- `ftp.quit()`: raises iff the session says so. -/
def quitSession (s : FTPSession) : Except Unit Unit :=
  if s.quitRaises then Except.error () else Except.ok ()

/-- `RobustFTPConnection.close`: when a handle is present, call `quit()`
inside `try`/`except Exception` (so a raising `quit` is swallowed) and clear
the handle in the `finally` block; when no handle is present, do nothing.
The second component records whether an exception escaped to the caller:
because of the blanket handler it is `none` on every path. -/
def close (c : Conn) : Conn × Option Unit :=
  match c.ftp with
  | none => (c, none)
  | some s =>
    match quitSession s with
    | Except.ok _ => ({ c with ftp := none }, none)
    | Except.error _ => ({ c with ftp := none }, none)

/-! ### Connection: `execute_with_retry`, `robust_ftp.py` lines 71-84

Each loop iteration runs `ensure_connected()` and then the wrapped operation;
the combined body either returns a value, raises a transient error or raises
a permanent one.  The oracle gives the body's outcome per iteration. -/

inductive BodyOutcome where
  | ok
  | transient
  | permanent
deriving DecidableEq

inductive EwrResult where
  | returned
  | fellThrough
  | transientErr
  | permanentErr
deriving DecidableEq

/-- The `for retry in range(max_retries)` loop: the first component counts
how many times the body (an `ensure_connected()` call followed by the wrapped
operation) started executing.  `fuel` is the number of remaining iterations;
on a transient error in the last iteration (`retry == max_retries - 1`) the
error is re-raised, otherwise `time.sleep(1)` and continue.  If the range is
empty the function falls through and returns `None`. -/
def ewrLoop (oracle : Nat → BodyOutcome) (retry fuel : Nat) : Nat × EwrResult :=
  match fuel with
  | 0 => (0, EwrResult.fellThrough)
  | f + 1 =>
    match oracle retry with
    | BodyOutcome.ok => (1, EwrResult.returned)
    | BodyOutcome.permanent => (1, EwrResult.permanentErr)
    | BodyOutcome.transient =>
      match f with
      | 0 => (1, EwrResult.transientErr)
      | _ + 1 =>
        let r := ewrLoop oracle (retry + 1) f
        (r.1 + 1, r.2)

/-- `RobustFTPConnection.execute_with_retry(func, max_retries=...)`; the
Python parameter is an `int`, so negative values are allowed and
`range(max_retries)` is then empty. -/
def executeWithRetry (oracle : Nat → BodyOutcome) (maxRetries : Int) : Nat × EwrResult :=
  ewrLoop oracle 0 maxRetries.toNat

/-- An environment in which the retried body always succeeds. -/
def allOk : Nat → BodyOutcome := fun _ => BodyOutcome.ok

/-! ### The remote tree

A model FTP server tree in first-child/next-sibling form: a forest is a list
of entries, each entry a file or a directory with a child forest.  A
directory-listing call against a directory of this tree returns one
`(name, is_directory)` pair per child, in order, exactly as the strategies
report them when every call succeeds. -/

inductive Forest : Type where
  | nil : Forest
  | file : Path → Forest → Forest
  | dir : Path → Forest → Forest → Forest
deriving DecidableEq

/-- Total number of entries in the forest (all levels). -/
def forestSize : Forest → Nat
  | Forest.nil => 0
  | Forest.file _ r => 1 + forestSize r
  | Forest.dir _ c r => 1 + forestSize c + forestSize r

/-- Names of the top-level entries of the forest. -/
def forestNames : Forest → List Path
  | Forest.nil => []
  | Forest.file n r => n :: forestNames r
  | Forest.dir n _ r => n :: forestNames r

/-- Number of top-level entries of the forest. -/
def forestLen : Forest → Nat
  | Forest.nil => 0
  | Forest.file _ r => 1 + forestLen r
  | Forest.dir _ _ r => 1 + forestLen r

/-- Number of directories in the forest (all levels). -/
def countDirs : Forest → Nat
  | Forest.nil => 0
  | Forest.file _ r => countDirs r
  | Forest.dir _ c r => 1 + countDirs c + countDirs r

/-- Number of files in the forest (all levels). -/
def countFiles : Forest → Nat
  | Forest.nil => 0
  | Forest.file _ r => 1 + countFiles r
  | Forest.dir _ c r => countFiles c + countFiles r

/-- A well-formed listing name: nonempty, free of path separators and
backslashes, and not one of the dot entries the strategies filter out. -/
def goodName (n : Path) : Bool :=
  decide (n ≠ [] ∧ '/' ∉ n ∧ '\\' ∉ n ∧ n ≠ ['.'] ∧ n ≠ ['.', '.'])

/-- All names in the forest are well formed and sibling names are distinct
at every level. -/
def goodForest : Forest → Bool
  | Forest.nil => true
  | Forest.file n r => goodName n && decide (n ∉ forestNames r) && goodForest r
  | Forest.dir n c r =>
    goodName n && decide (n ∉ forestNames r) && goodForest c && goodForest r

/-! ### Path arithmetic of the traversal, `main.py` lines 214-293 -/

/-- POSIX `os.path.join(a, b)`: `b` if `b` is absolute, else `a` glued to `b`
with exactly one separator inserted when `a` does not already end in one. -/
def pyJoin (a b : Path) : Path :=
  if b.head? = some '/' then b
  else if a = [] then b
  else if a.getLast? = some '/' then a ++ b
  else a ++ '/' :: b

/-- `.replace("\\", "/")` applied after each join in the generator. -/
def replaceBS (s : Path) : Path :=
  s.map fun c => if c = '\\' then '/' else c

/-- Python `s.rstrip("/")`: drop the maximal run of trailing separators. -/
def rstripSlash (s : Path) : Path :=
  (s.reverse.dropWhile (fun c => c = '/')).reverse

/-- `main.py` line 215: `remote_start_path.rstrip("/") + "/"`. -/
def normStart (start : Path) : Path := rstripSlash start ++ ['/']

/-- `full_item_path = os.path.join(current_relative_path, item_name)
.replace("\\", "/")` (`main.py` lines 267-269). -/
def fullItem (rel n : Path) : Path := replaceBS (pyJoin rel n)

/-- `final_path = os.path.join(normalized_start_path, full_item_path)
.replace("\\", "/")` (`main.py` lines 270-272). -/
def finalItem (nsp rel n : Path) : Path := replaceBS (pyJoin nsp (fullItem rel n))

/-- Directory output item: `final_path.rstrip("/") + "/"` (line 276). -/
def dirFinal (nsp rel n : Path) : Path := rstripSlash (finalItem nsp rel n) ++ ['/']

/-- `ftp_item_path = os.path.join(current_ftp_dir, item_name)
.replace("\\", "/")` (lines 279-281). -/
def ftpChild (cur n : Path) : Path := replaceBS (pyJoin cur n)

/-- A frontier element of `dirs_to_visit`: the server path to `cwd` into, the
relative path accumulated since the start, and (model state) the subtree the
server resolves that path to. -/
abbrev QItem := Path × Path × Forest

/-- The `for item_name, is_directory in contents` loop of one dequeued
directory: the output items yielded, in order (`main.py` lines 265-285). -/
def stepOut (nsp rel : Path) : Forest → List Path
  | Forest.nil => []
  | Forest.file n r => finalItem nsp rel n :: stepOut nsp rel r
  | Forest.dir n _ r => dirFinal nsp rel n :: stepOut nsp rel r

/-- The frontier items appended by the same loop (`main.py` line 282):
`(ftp_item_path + "/", full_item_path + "/")` for each directory entry. -/
def stepEnq (cur rel : Path) : Forest → List QItem
  | Forest.nil => []
  | Forest.file _ r => stepEnq cur rel r
  | Forest.dir n c r =>
    (ftpChild cur n ++ ['/'], fullItem rel n ++ ['/'], c) :: stepEnq cur rel r

/-- Termination measure helper: total tree size stored in the frontier. -/
def qSize (q : List QItem) : Nat :=
  (q.map fun it => forestSize it.2.2).sum

/-- The `while dirs_to_visit` loop of
`generate_ftp_recursive_listing_optimized` when every `cwd` and every listing
call succeeds: dequeue the oldest frontier item, yield the outputs of its
children in listing order and append its child directories to the frontier.
The `if not contents: continue` short-circuit and the periodic
`ensure_connected` call are observationally identical to this on the success
path: an empty listing yields nothing and enqueues nothing either way. -/
def crawl (nsp : Path) (q : List QItem) : List Path :=
  match q with
  | [] => []
  | (cur, rel, f) :: rest =>
    stepOut nsp rel f ++ crawl nsp (rest ++ stepEnq cur rel f)
termination_by 2 * qSize q + q.length
decreasing_by
  simp only [qSize, List.map_cons, List.map_append, List.sum_cons, List.sum_append,
    List.length_cons, List.length_append]
  have h1 : ((stepEnq cur rel f).map fun it => forestSize it.2.2).sum + forestLen f
      = forestSize f := by
    clear rest
    induction f with
    | nil => simp [stepEnq, forestLen, forestSize]
    | file n r ih => simp [stepEnq, forestLen, forestSize] at *; omega
    | dir n c r _ihc ihr => simp [stepEnq, forestLen, forestSize] at *; omega
  have h2 : (stepEnq cur rel f).length ≤ forestLen f := by
    clear rest h1
    induction f with
    | nil => simp [stepEnq]
    | file n r ih => simp only [stepEnq, forestLen]; omega
    | dir n c r _ihc ihr => simp only [stepEnq, forestLen, List.length_cons]; omega
  omega

/-- The same loop with explicit failure oracles: `cwdOk cur = false` means the
`ftp_conn.cwd(current_ftp_dir)` call raises (the `except` logs and `continue`s,
skipping that directory, `main.py` lines 244-248); `listOk cur = false` means
the selected listing method reports failure or nothing for that directory
(`None` or `[]`), which the loop also skips (lines 250-263). -/
def crawlF (cwdOk listOk : Path → Bool) (nsp : Path) (q : List QItem) : List Path :=
  match q with
  | [] => []
  | (cur, rel, f) :: rest =>
    if cwdOk cur then
      if listOk cur then
        stepOut nsp rel f ++ crawlF cwdOk listOk nsp (rest ++ stepEnq cur rel f)
      else crawlF cwdOk listOk nsp rest
    else crawlF cwdOk listOk nsp rest
termination_by 2 * qSize q + q.length
decreasing_by
  · simp only [qSize, List.map_cons, List.map_append, List.sum_cons, List.sum_append,
      List.length_cons, List.length_append]
    have h1 : ((stepEnq cur rel f).map fun it => forestSize it.2.2).sum + forestLen f
        = forestSize f := by
      clear rest
      induction f with
      | nil => simp [stepEnq, forestLen, forestSize]
      | file n r ih => simp [stepEnq, forestLen, forestSize] at *; omega
      | dir n c r _ihc ihr => simp [stepEnq, forestLen, forestSize] at *; omega
    have h2 : (stepEnq cur rel f).length ≤ forestLen f := by
      clear rest h1
      induction f with
      | nil => simp [stepEnq]
      | file n r ih => simp only [stepEnq, forestLen]; omega
      | dir n c r _ihc ihr => simp only [stepEnq, forestLen, List.length_cons]; omega
    omega
  · simp only [qSize, List.map_cons, List.sum_cons, List.length_cons]
    omega
  · simp only [qSize, List.map_cons, List.sum_cons, List.length_cons]
    omega

/-- The crawl as the generator starts it (`main.py` lines 215-218 and the
loop): frontier initialised with `(normalized_start_path, "")`. -/
def crawlTop (start : Path) (f : Forest) : List Path :=
  crawl (normStart start) [(normStart start, [], f)]

/-- Reference enumeration of the output paths: for each entry below prefix
`pre`, the directory path `pre ++ name ++ "/"` followed by its descendants,
or the file path `pre ++ name`. -/
def pathsForest (pre : Path) : Forest → List Path
  | Forest.nil => []
  | Forest.file n r => (pre ++ n) :: pathsForest pre r
  | Forest.dir n c r =>
    (pre ++ n ++ ['/']) :: (pathsForest (pre ++ n ++ ['/']) c ++ pathsForest pre r)

/-- Expected reference paths of a whole frontier. -/
def qPaths (nsp : Path) : List QItem → List Path
  | [] => []
  | it :: rest => pathsForest (nsp ++ it.2.1) it.2.2 ++ qPaths nsp rest

/-- Output item ends in the separator (how `main()` classifies directories). -/
def endsSlash (p : Path) : Bool := p.getLast? = some '/'

/-- Invariant on accumulated relative paths: empty at the start, afterwards
separator-terminated, never separator-initial, backslash-free. -/
def GoodRel (rel : Path) : Prop :=
  rel = [] ∨ (rel.head? ≠ some '/' ∧ rel.getLast? = some '/' ∧ '\\' ∉ rel)

/-- Invariant on the normalized start path: nonempty, separator-terminated,
backslash-free. -/
def GoodNsp (nsp : Path) : Prop :=
  nsp ≠ [] ∧ nsp.getLast? = some '/' ∧ '\\' ∉ nsp

/-- Invariant on the frontier. -/
def InvQ (q : List QItem) : Prop :=
  ∀ it ∈ q, GoodRel it.2.1 ∧ goodForest it.2.2 = true

/-! ### The generator with its outer exception handler, `main.py` 202-293 -/

/-- Environment of one generator run. -/
structure GenEnv where
  /-- `RobustFTPConnection(host, ...)` construction succeeds. -/
  constructOk : Bool
  /-- The initial `ftp_conn.cwd(normalized_start_path)` succeeds. -/
  startCwdOk : Bool
  /-- Result of `get_directory_contents_mlsd` on the probe directory
  (`none` = failure). -/
  probeMlsd : Option (List (Path × Bool))
  /-- Result of `get_directory_contents_dir` on the probe directory. -/
  probeDir : Option (List (Path × Bool))
  /-- Per-directory success of steady-state MLSD listings. -/
  mlsdOk : Path → Bool
  /-- Per-directory success of steady-state DIR listings. -/
  dirOk : Path → Bool
  /-- Per-directory success of steady-state `nlst` calls. -/
  nlstOk : Path → Bool
  /-- Per-directory success of the `cwd` at the top of the loop. -/
  cwdOk : Path → Bool
  /-- The remote tree below the start directory. -/
  tree : Forest

/-- Which per-directory listing oracle the fixed method consults. -/
def listOkOf (env : GenEnv) : Path → Bool :=
  match selectMethod env.probeMlsd env.probeDir with
  | Method.mlsd => env.mlsdOk
  | Method.dir => env.dirOk
  | Method.fallback => env.nlstOk

/-- The generator body before the outer handler: `([], some ())` when
construction or the initial `cwd` raises (the exception reaches the
`except Exception` at `main.py` line 289), otherwise the crawl's outputs with
no escaping exception. -/
def innerRun (env : GenEnv) (start : Path) : List Path × Option Unit :=
  if env.constructOk = false then ([], some ())
  else if env.startCwdOk = false then ([], some ())
  else
    (crawlF env.cwdOk (listOkOf env) (normStart start)
      [(normStart start, [], env.tree)], none)

/-- `generate_ftp_recursive_listing_optimized` as its consumer observes it:
the yielded items plus whether an unrecoverable-failure signal (an exception)
reaches the consumer.  The `try`/`except Exception`/`finally` wrapping the
whole body (lines 211, 289-293) swallows every exception, so the generator
always terminates normally and the signal component is the swallowed
`innerRun` exception downgraded to `false`. -/
def generateListing (env : GenEnv) (start : Path) : List Path × Bool :=
  ((innerRun env start).1, false)

/-! ### Concrete scenarios -/

/-- The tree of the C1 scenario: one directory `a` containing one file
`b.txt`. -/
def exTree1 : Forest :=
  Forest.dir "a".toList (Forest.file "b.txt".toList Forest.nil) Forest.nil

/-- A one-file tree used for the C2 counterexample. -/
def exTree2 : Forest := Forest.file "f.txt".toList Forest.nil

/-- A deeper tree used for the C2 witness. -/
def exTree3 : Forest :=
  Forest.dir "a".toList
    (Forest.file "b".toList
      (Forest.dir "c".toList Forest.nil (Forest.file "d".toList Forest.nil)))
    (Forest.file "e".toList Forest.nil)

/-- An environment whose `RobustFTPConnection` construction fails. -/
def envNoConstruct : GenEnv :=
  { constructOk := false, startCwdOk := true,
    probeMlsd := some [], probeDir := none,
    mlsdOk := fun _ => true, dirOk := fun _ => true, nlstOk := fun _ => true,
    cwdOk := fun _ => true, tree := exTree1 }

/-- An environment where all three strategies fail: both probes return
failure and every steady-state `nlst` call fails as well. -/
def envExhausted : GenEnv :=
  { constructOk := true, startCwdOk := true,
    probeMlsd := none, probeDir := none,
    mlsdOk := fun _ => false, dirOk := fun _ => false, nlstOk := fun _ => false,
    cwdOk := fun _ => true, tree := exTree1 }

/-! ## Theorems -/

/-! ### C8: `connect` retry behaviour -/

theorem connectLoop_permanent (oracle : Nat → AttemptOutcome) :
    ∀ k a fuel, k ≤ fuel →
      (∀ i, i < k → oracle (a + i) = AttemptOutcome.transient) →
      oracle (a + k) = AttemptOutcome.permanent →
      connectLoop oracle a fuel =
        ⟨k + 1, (List.range k).map (fun i => 2 ^ (a + i)), ConnResult.permanentErr⟩ := by
  intro k
  induction k with
  | zero =>
    intro a fuel _ _ hp
    simp only [Nat.add_zero] at hp
    cases fuel <;> simp [connectLoop, hp]
  | succ k ih =>
    intro a fuel hk hpre hp
    have h0 : oracle a = AttemptOutcome.transient := by
      have := hpre 0 (Nat.succ_pos k)
      simpa using this
    cases fuel with
    | zero => omega
    | succ f =>
      have hrec := ih (a + 1) f (by omega)
        (fun i hi => by
          have := hpre (i + 1) (by omega)
          have harg : a + (i + 1) = a + 1 + i := by omega
          rwa [harg] at this)
        (by
          have harg : a + (k + 1) = a + 1 + k := by omega
          rwa [harg] at hp)
      have hfun : List.map ((fun i => 2 ^ (a + i)) ∘ Nat.succ) (List.range k)
          = List.map (fun i => 2 ^ (a + 1 + i)) (List.range k) :=
        List.map_congr_left fun x _ => by
          simp only [Function.comp_apply]
          congr 1
          omega
      have hdel : (List.range (k + 1)).map (fun i => 2 ^ (a + i))
          = 2 ^ a :: (List.range k).map (fun i => 2 ^ (a + 1 + i)) := by
        rw [List.range_succ_eq_map, List.map_cons, List.map_map, hfun]
        simp
      simp only [connectLoop, h0]
      rw [hrec, hdel]

theorem connectLoop_transient (oracle : Nat → AttemptOutcome) :
    ∀ fuel a, (∀ i, i ≤ fuel → oracle (a + i) = AttemptOutcome.transient) →
      connectLoop oracle a fuel =
        ⟨fuel + 1, (List.range fuel).map (fun i => 2 ^ (a + i)), ConnResult.transientErr⟩ := by
  intro fuel
  induction fuel with
  | zero =>
    intro a h
    have h0 : oracle a = AttemptOutcome.transient := by simpa using h 0 (Nat.le_refl 0)
    simp [connectLoop, h0]
  | succ f ih =>
    intro a h
    have h0 : oracle a = AttemptOutcome.transient := by simpa using h 0 (Nat.zero_le _)
    have hrec := ih (a + 1) (fun i hi => by
      have := h (i + 1) (by omega)
      have harg : a + (i + 1) = a + 1 + i := by omega
      rwa [harg] at this)
    have hfun : List.map ((fun i => 2 ^ (a + i)) ∘ Nat.succ) (List.range f)
        = List.map (fun i => 2 ^ (a + 1 + i)) (List.range f) :=
      List.map_congr_left fun x _ => by
        simp only [Function.comp_apply]
        congr 1
        omega
    have hdel : (List.range (f + 1)).map (fun i => 2 ^ (a + i))
        = 2 ^ a :: (List.range f).map (fun i => 2 ^ (a + 1 + i)) := by
      rw [List.range_succ_eq_map, List.map_cons, List.map_map, hfun]
      simp
    simp only [connectLoop, h0]
    rw [hrec, hdel]

/-- C8 (confirmed): `connect(maxRetries)` makes, under persistently transient
failure, exactly `maxRetries + 1` attempts with sleeps of `2^0, 2^1, 2^2, ...`
seconds between consecutive attempts (1s, 2s, 4s, doubling), after which the
final transient error propagates; a permanent error at attempt `k` (after `k`
transient attempts) propagates at once: `k + 1` attempts in total and no
backoff delay beyond the `k` already performed. -/
theorem c8_connect (oracle : Nat → AttemptOutcome) (maxRetries k : Nat)
    (hk : k ≤ maxRetries)
    (hpre : ∀ i, i < k → oracle i = AttemptOutcome.transient) :
    (oracle k = AttemptOutcome.permanent →
      connectSim oracle maxRetries =
        ⟨k + 1, (List.range k).map (fun i => 2 ^ i), ConnResult.permanentErr⟩)
    ∧ (k = maxRetries → oracle k = AttemptOutcome.transient →
      connectSim oracle maxRetries =
        ⟨maxRetries + 1, (List.range maxRetries).map (fun i => 2 ^ i),
          ConnResult.transientErr⟩) := by
  constructor
  · intro hp
    have h := connectLoop_permanent oracle k 0 maxRetries hk
      (fun i hi => by simpa using hpre i hi) (by simpa using hp)
    simpa [connectSim] using h
  · intro hkm ht
    subst hkm
    have h := connectLoop_transient oracle k 0
      (fun i hi => by
        rcases Nat.lt_or_ge i k with hlt | hge
        · simpa using hpre i hlt
        · have : i = k := by omega
          simpa [this] using ht)
    simpa [connectSim] using h

/-- Witness for C8: with every attempt failing transiently and
`max_retries = 3`, `connect` makes 4 attempts, sleeping 1s, 2s and 4s in
between, and ends with the transient error propagating. -/
theorem c8_connect_witness :
    connectSim allTransient 3 =
      ⟨3 + 1, (List.range 3).map (fun i => 2 ^ i), ConnResult.transientErr⟩ :=
  (c8_connect allTransient 3 3 (Nat.le_refl 3) (fun _ _ => rfl)).2 rfl rfl

/-! ### C9: `close` idempotence -/

/-- C9 (confirmed): `close()` never lets an exception escape (the second
component of the model is the escaped exception and is always `none`), always
leaves the handle cleared, and calling it again on the resulting connection
returns the same closed state: close is idempotent. -/
theorem c9_close_idempotent (c : Conn) :
    (close c).2 = none ∧ ((close c).1).ftp = none ∧ close ((close c).1) = close c := by
  cases c with
  | mk h u p ftp =>
    cases ftp with
    | none => simp [close]
    | some s =>
      cases s with
      | mk qr => cases qr <;> simp [close, quitSession]

/-! ### C10: `execute_with_retry` with a non-positive retry budget -/

/-- C10 (confirmed): for `max_retries ≤ 0` the `range(max_retries)` loop body
never runs, so `execute_with_retry` performs zero attempts (neither
`ensure_connected` nor the wrapped operation is invoked) and falls through,
returning `None`. -/
theorem c10_execute (oracle : Nat → BodyOutcome) (maxRetries : Int)
    (h : maxRetries ≤ 0) :
    executeWithRetry oracle maxRetries = (0, EwrResult.fellThrough) := by
  unfold executeWithRetry
  rw [Int.toNat_of_nonpos h]
  rfl

/-- Witness for C10 at `max_retries = -2` with an always-succeeding body. -/
theorem c10_execute_witness :
    executeWithRetry allOk (-2) = (0, EwrResult.fellThrough) :=
  c10_execute allOk (-2) (by decide)

/-! ### C7: strategy selection -/

/-- C7 counterexample: when the MLSD and DIR probes both fail, the claimed
selection rule (probe all three in order, fail when all fail) yields no
strategy for an environment where the name-probe would also fail, yet the
code unconditionally fixes the fallback method without probing it. -/
theorem c7_counterexample :
    claimedSelect none none none = none ∧ selectMethod none none = Method.fallback :=
  ⟨rfl, rfl⟩

/-- C7 (corrected): selection probes MLSD then DIR by invoking them against
the probe directory; a non-`None` result (an empty listing included) fixes
that method, with MLSD preferred, and agrees with the claimed
first-non-failure rule; but when both probes fail, the fallback method is
fixed as the residual case without ever being probed. -/
theorem c7_selection (pm pd pf : Option (List (Path × Bool))) :
    (∀ es, pm = some es → selectMethod pm pd = Method.mlsd)
    ∧ (pm = none → ∀ es, pd = some es → selectMethod pm pd = Method.dir)
    ∧ (pm = none → pd = none → selectMethod pm pd = Method.fallback)
    ∧ (pm ≠ none ∨ pd ≠ none → claimedSelect pm pd pf = some (selectMethod pm pd)) := by
  cases pm <;> cases pd <;> simp [selectMethod, claimedSelect]

/-- Witness for C7: a server answering the MLSD probe with an empty listing
gets the MLSD method even though the DIR probe would also succeed. -/
theorem c7_selection_witness :
    selectMethod (some []) (some [(['x'], true)]) = Method.mlsd :=
  (c7_selection (some []) (some [(['x'], true)]) none).1 [] rfl

/-! ### C6: the NameProbe per-name classification -/

/-- C6 counterexample: for a name whose `cwd(item)` succeeds but whose
`cwd("..")` fails, the fallback loop appends the name twice, once as a
directory and once as a file, while the claim demands exactly one entry
classified by the conjunction of the two probe outcomes. -/
theorem c6_counterexample :
    fallbackEntries [(['x'], true, false)] ≠ fallbackClaimed [(['x'], true, false)]
    ∧ fallbackEntries [(['x'], true, false)] = [(['x'], true), (['x'], false)] := by
  constructor
  · decide
  · rfl

/-- C6 (corrected): each non-dot name contributes, in order: one `(n, false)`
entry when `cwd(n)` fails; one `(n, true)` entry when both `cwd(n)` and
`cwd("..")` succeed; and the two entries `(n, true), (n, false)` when `cwd(n)`
succeeds but the return `cwd("..")` fails.  In particular the claimed
one-entry-per-name rule holds exactly when every successful descent can also
return to the parent. -/
theorem c6_fallback (trace : List (Path × Bool × Bool)) :
    fallbackEntries trace = fallbackFlat trace
    ∧ ((∀ it ∈ trace, it.2.1 = true → it.2.2 = true) →
        fallbackEntries trace = fallbackClaimed trace) := by
  induction trace with
  | nil => exact ⟨rfl, fun _ => rfl⟩
  | cons it rest ih =>
    obtain ⟨n, e, b⟩ := it
    constructor
    · by_cases hd : n = ['.'] ∨ n = ['.', '.']
      · simp [fallbackEntries, fallbackFlat, fallbackItem, hd, ih.1]
      · cases e <;> cases b <;>
          simp [fallbackEntries, fallbackFlat, fallbackItem, hd, ih.1]
    · intro hok
      have hrest := ih.2 fun x hx => hok x (List.mem_cons_of_mem _ hx)
      have hthis := hok (n, e, b) (List.mem_cons_self _ _)
      by_cases hd : n = ['.'] ∨ n = ['.', '.']
      · simp [fallbackEntries, fallbackClaimed, hd, hrest]
      · cases e with
        | false => simp [fallbackEntries, fallbackClaimed, hd, hrest]
        | true =>
          have hb : b = true := hthis rfl
          subst hb
          simp [fallbackEntries, fallbackClaimed, hd, hrest]

/-- Witness for C6: on a trace where every descent can return to the parent,
the fallback produces exactly the claimed one entry per non-dot name. -/
theorem c6_fallback_witness :
    fallbackEntries [(['x'], true, true), (['y'], false, false), (['.'], true, true)]
      = fallbackClaimed [(['x'], true, true), (['y'], false, false), (['.'], true, true)] :=
  (c6_fallback [(['x'], true, true), (['y'], false, false), (['.'], true, true)]).2
    (by decide)

/-! ### C4 and C5: tabular (DIR) listing-line parsing -/

theorem splitWsGo_length : ∀ (b : Nat) (s : Path), (splitWsGo b s).length ≤ b + 1 := by
  intro b
  induction b with
  | zero =>
    intro s
    simp only [splitWsGo]
    cases h : s.dropWhile isPySpace <;> simp
  | succ b ih =>
    intro s
    simp only [splitWsGo]
    cases h : s.dropWhile isPySpace with
    | nil => simp
    | cons c rest =>
      have := ih ((c :: rest).dropWhile (fun x => !isPySpace x))
      simp only [List.length_cons]
      omega

theorem splitWsGo_of_blank (b : Nat) (s : Path) (h : s.dropWhile isPySpace = []) :
    splitWsGo b s = [] := by
  cases b <;> simp [splitWsGo, h]

theorem splitWs8_of_blank (s : Path) (h : s.dropWhile isPySpace = []) :
    splitWs8 s = [] :=
  splitWsGo_of_blank 8 s h

/-- Shared evaluation lemma: on a non-blank line with at least 4 tokens whose
extracted filename is not a dot entry, `parseDirLine` yields exactly one entry
with the flag read from the first token and the name from the last. -/
theorem parseDirLine_pos (line p0 pl : Path)
    (h1 : (splitWs8 line).head? = some p0)
    (h2 : (splitWs8 line).getLast? = some pl)
    (h3 : 4 ≤ (splitWs8 line).length)
    (hd1 : extractName pl ≠ ['.'])
    (hd2 : extractName pl ≠ ['.', '.']) :
    parseDirLine line = some (extractName pl, startsWithChar 'd' p0) := by
  have hblank : ¬ line.dropWhile isPySpace = [] := by
    intro hb
    rw [splitWs8_of_blank line hb] at h3
    simp at h3
  simp only [parseDirLine]
  rw [if_neg hblank, if_neg (by omega : ¬ (splitWs8 line).length < 4), h1, h2]
  simp [hd1, hd2]

/-- C4 counterexample: the line `"drwxr-xr-x 2 root root ."` splits into five
tokens, at least four, yet produces no entry — its filename is `"."`, which
the strategy skips — refuting "every line with at least 4 tokens produces
exactly one entry". -/
theorem c4_counterexample :
    4 ≤ (splitWs8 "drwxr-xr-x 2 root root .".toList).length
    ∧ parseDirLine "drwxr-xr-x 2 root root .".toList = none := by
  constructor
  · decide
  · decide

/-- C4 (corrected): the Tabular strategy splits each line on whitespace into
at most 9 tokens; blank lines and lines with fewer than 4 tokens are
discarded without affecting the other lines; a line with at least 4 tokens
produces exactly one entry whose flag is "first token starts with 'd'" and
whose name is the final token (symlink arrow stripped) — except that a line
whose extracted name is `.` or `..` is also skipped and produces no entry. -/
theorem c4_tabular (line : Path) :
    ((splitWs8 line).length ≤ 9)
    ∧ (line.dropWhile isPySpace = [] → parseDirLine line = none)
    ∧ ((splitWs8 line).length < 4 → parseDirLine line = none)
    ∧ (∀ lines, parseDirLine line = none → dirContents (line :: lines) = dirContents lines)
    ∧ (∀ p0 pl, (splitWs8 line).head? = some p0 → (splitWs8 line).getLast? = some pl →
        4 ≤ (splitWs8 line).length →
        extractName pl ≠ ['.'] → extractName pl ≠ ['.', '.'] →
        parseDirLine line = some (extractName pl, startsWithChar 'd' p0)) := by
  refine ⟨splitWsGo_length 8 line, ?_, ?_, ?_, ?_⟩
  · intro hb
    simp [parseDirLine, hb]
  · intro hlt
    by_cases hb : line.dropWhile isPySpace = []
    · simp [parseDirLine, hb]
    · simp only [parseDirLine]
      rw [if_neg hb, if_pos hlt]
  · intro lines hnone
    simp [dirContents, List.filterMap_cons, hnone]
  · intro p0 pl h1 h2 h3 hd1 hd2
    exact parseDirLine_pos line p0 pl h1 h2 h3 hd1 hd2

/-- Witness for C4 on the line `"drwxr-xr-x 2 root root 4096 Jan 1 00:00 mydir"`. -/
theorem c4_tabular_witness :
    parseDirLine "drwxr-xr-x 2 root root 4096 Jan 1 00:00 mydir".toList
      = some (extractName "mydir".toList,
          startsWithChar 'd' "drwxr-xr-x".toList) :=
  (c4_tabular "drwxr-xr-x 2 root root 4096 Jan 1 00:00 mydir".toList).2.2.2.2
    "drwxr-xr-x".toList "mydir".toList (by decide) (by decide) (by decide)
    (by decide) (by decide)

theorem isPre_self_append : ∀ s t : Path, isPre s (s ++ t) = true := by
  intro s
  induction s with
  | nil => intro t; rfl
  | cons c cs ih => intro t; simp [isPre, ih t]

theorem takeBeforeSep_of_isPre (pat s : Path) (hp : pat ≠ []) (h : isPre pat s = true) :
    takeBeforeSep pat s = [] := by
  cases s with
  | nil =>
    cases pat with
    | nil => exact absurd rfl hp
    | cons c cs => simp [isPre] at h
  | cons c cs => simp [takeBeforeSep, h]

theorem containsSeq_append_self (pat : Path) (hp : pat ≠ []) :
    ∀ pre tgt : Path, containsSeq pat (pre ++ pat ++ tgt) = true := by
  intro pre
  induction pre with
  | nil =>
    intro tgt
    cases hpat : pat with
    | nil => exact absurd hpat hp
    | cons c cs =>
      have hself : isPre pat (pat ++ tgt) = true := isPre_self_append pat tgt
      rw [hpat] at hself
      simp only [List.nil_append, hpat, List.cons_append, containsSeq]
      rw [show (c :: cs ++ tgt) = c :: (cs ++ tgt) from rfl] at hself
      simp [hself]
  | cons c cs ih =>
    intro tgt
    have hshape : (c :: cs) ++ pat ++ tgt = c :: (cs ++ pat ++ tgt) := by
      simp only [List.cons_append]
    rw [hshape]
    show (isPre pat (c :: (cs ++ pat ++ tgt)) || containsSeq pat (cs ++ pat ++ tgt)) = true
    rw [ih tgt]
    simp

theorem takeBeforeSep_boundary :
    ∀ (name tgt : Path),
      (∀ k, k < name.length →
        isPre arrowSep ((name ++ arrowSep ++ tgt).drop k) = false) →
      takeBeforeSep arrowSep (name ++ arrowSep ++ tgt) = name := by
  intro name
  induction name with
  | nil =>
    intro tgt _
    simp only [List.nil_append]
    exact takeBeforeSep_of_isPre arrowSep (arrowSep ++ tgt) (by decide)
      (isPre_self_append arrowSep tgt)
  | cons c cs ih =>
    intro tgt hocc
    have hshape : (c :: cs) ++ arrowSep ++ tgt = c :: (cs ++ arrowSep ++ tgt) := by
      simp only [List.cons_append]
    have h0 : isPre arrowSep (c :: (cs ++ arrowSep ++ tgt)) = false := by
      have h := hocc 0 (by simp only [List.length_cons]; omega)
      rw [hshape, List.drop_zero] at h
      exact h
    have hrest : ∀ k, k < cs.length →
        isPre arrowSep ((cs ++ arrowSep ++ tgt).drop k) = false := by
      intro k hk
      have h := hocc (k + 1) (by simp only [List.length_cons]; omega)
      rw [hshape, List.drop_succ_cons] at h
      exact h
    rw [hshape]
    show (if isPre arrowSep (c :: (cs ++ arrowSep ++ tgt)) = true then []
      else c :: takeBeforeSep arrowSep (cs ++ arrowSep ++ tgt)) = c :: cs
    rw [if_neg (by rw [h0]; exact Bool.false_ne_true), ih tgt hrest]

/-- C5 (confirmed): a tabular line whose final token has the symlink form
`name -> target` — with the arrow's first occurrence at the boundary, i.e.
the arrow does not also occur earlier — produces an entry whose name is
exactly `name`: the arrow and the target are dropped. -/
theorem c5_symlink (line p0 name tgt : Path)
    (h1 : (splitWs8 line).head? = some p0)
    (h2 : (splitWs8 line).getLast? = some (name ++ arrowSep ++ tgt))
    (h3 : 4 ≤ (splitWs8 line).length)
    (hocc : ∀ k, k < name.length →
      isPre arrowSep ((name ++ arrowSep ++ tgt).drop k) = false)
    (hd1 : name ≠ ['.'])
    (hd2 : name ≠ ['.', '.']) :
    parseDirLine line = some (name, startsWithChar 'd' p0) := by
  have hext : extractName (name ++ arrowSep ++ tgt) = name := by
    unfold extractName
    rw [containsSeq_append_self arrowSep (by decide) name tgt, if_pos rfl]
    exact takeBeforeSep_boundary name tgt hocc
  have := parseDirLine_pos line p0 (name ++ arrowSep ++ tgt) h1 h2 h3
    (by rw [hext]; exact hd1) (by rw [hext]; exact hd2)
  rw [hext] at this
  exact this

/-- Witness for C5 on the line
`"lrwxrwxrwx 1 root root 4 Jan 1 00:00 mylink -> /usr/bin/python3"`, whose
final token is `"mylink -> /usr/bin/python3"`. -/
theorem c5_symlink_witness :
    parseDirLine
        "lrwxrwxrwx 1 root root 4 Jan 1 00:00 mylink -> /usr/bin/python3".toList
      = some ("mylink".toList, startsWithChar 'd' "lrwxrwxrwx".toList) :=
  c5_symlink "lrwxrwxrwx 1 root root 4 Jan 1 00:00 mylink -> /usr/bin/python3".toList
    "lrwxrwxrwx".toList "mylink".toList "/usr/bin/python3".toList
    (by decide) (by decide) (by decide) (by decide) (by decide) (by decide)

/-! ### C1: the concrete two-node scenario -/

/-- C1 counterexample: starting at `"/"` over the tree `a/` containing
`a/b.txt`, the generator does not yield `a/` and `a/b.txt`: every output is
prefixed with the normalized start path (`os.path.join(normalized_start_path,
full_item_path)` at `main.py` lines 270-272), so the actual items are `/a/`
and `/a/b.txt`. -/
theorem c1_counterexample :
    crawlTop "/".toList exTree1 ≠ ["a/".toList, "a/b.txt".toList] := by
  have h : crawlTop "/".toList exTree1 = ["/a/".toList, "/a/b.txt".toList] := by
    simp only [crawlTop, crawl, stepOut, stepEnq, exTree1, List.nil_append,
      List.append_nil, List.cons_append]
    decide
  rw [h]
  decide

/-- C1 (corrected): for start path `"/"` over the tree `a/` containing
`a/b.txt`, with every call succeeding, the output sequence is exactly `/a/`
followed by `/a/b.txt`: the directory's path (start-path prefixed, trailing
separator) is yielded when it is discovered, before the directory is dequeued
and its child is yielded. -/
theorem c1_scenario :
    crawlTop "/".toList exTree1 = ["/a/".toList, "/a/b.txt".toList] := by
  simp only [crawlTop, crawl, stepOut, stepEnq, exTree1, List.nil_append,
    List.append_nil, List.cons_append]
  decide

/-! ### C3: failure propagation of the generator -/

theorem crawlF_skip_cwd (cwdOk listOk : Path → Bool) (nsp cur rel : Path)
    (f : Forest) (rest : List QItem) (h : cwdOk cur = false) :
    crawlF cwdOk listOk nsp ((cur, rel, f) :: rest) = crawlF cwdOk listOk nsp rest := by
  simp [crawlF, h]

theorem crawlF_skip_list (cwdOk listOk : Path → Bool) (nsp cur rel : Path)
    (f : Forest) (rest : List QItem) (h : cwdOk cur = true) (h2 : listOk cur = false) :
    crawlF cwdOk listOk nsp ((cur, rel, f) :: rest) = crawlF cwdOk listOk nsp rest := by
  simp [crawlF, h, h2]

theorem crawlF_nolist (cwdOk listOk : Path → Bool) (nsp : Path)
    (hl : ∀ p, listOk p = false) : ∀ q, crawlF cwdOk listOk nsp q = [] := by
  intro q
  induction q with
  | nil => simp [crawlF]
  | cons it rest ih =>
    obtain ⟨cur, rel, f⟩ := it
    cases hc : cwdOk cur <;> simp [crawlF, hc, hl cur, ih]

/-- C3 counterexample: with a failing Connection construction the generator
completes as an empty sequence with no failure signal to the consumer; the
same happens under total strategy exhaustion (both probes fail and every
fallback listing fails).  The claim's "explicit unrecoverable-failure signal"
never reaches the consumer. -/
theorem c3_counterexample :
    envNoConstruct.constructOk = false
    ∧ generateListing envNoConstruct "/".toList = ([], false)
    ∧ envExhausted.probeMlsd = none
    ∧ envExhausted.probeDir = none
    ∧ generateListing envExhausted "/".toList = ([], false) := by
  refine ⟨rfl, rfl, rfl, rfl, ?_⟩
  have h := crawlF_nolist envExhausted.cwdOk (listOkOf envExhausted)
    (normStart "/".toList) (fun p => rfl)
    [(normStart "/".toList, [], envExhausted.tree)]
  simp only [generateListing, innerRun]
  rw [if_neg (by decide), if_neg (by decide)]
  simpa using h

/-- C3 (corrected): the outer `try`/`except Exception` of the generator
(`main.py` lines 211, 289-293) swallows every exception, so the consumer
never receives a failure signal: a failed construction, a failed initial
`cwd`, and total strategy exhaustion each produce a normally-terminated empty
sequence with no signal; meanwhile failures local to one directory (a failed
`cwd` or a failed listing) only skip that directory — the rest of the
frontier is processed unchanged and the sequence continues. -/
theorem c3_generator (env : GenEnv) (start : Path) :
    ((generateListing env start).2 = false)
    ∧ (env.constructOk = false → generateListing env start = ([], false))
    ∧ (env.startCwdOk = false → generateListing env start = ([], false))
    ∧ (env.probeMlsd = none → env.probeDir = none → (∀ p, env.nlstOk p = false) →
        generateListing env start = ([], false))
    ∧ (∀ cwdOk listOk : Path → Bool, ∀ nsp cur rel : Path, ∀ f : Forest,
        ∀ rest : List QItem, cwdOk cur = false →
        crawlF cwdOk listOk nsp ((cur, rel, f) :: rest) = crawlF cwdOk listOk nsp rest)
    ∧ (∀ cwdOk listOk : Path → Bool, ∀ nsp cur rel : Path, ∀ f : Forest,
        ∀ rest : List QItem, cwdOk cur = true → listOk cur = false →
        crawlF cwdOk listOk nsp ((cur, rel, f) :: rest) = crawlF cwdOk listOk nsp rest) := by
  refine ⟨rfl, ?_, ?_, ?_, ?_, ?_⟩
  · intro h
    simp [generateListing, innerRun, h]
  · intro h
    cases hc : env.constructOk <;> simp [generateListing, innerRun, h, hc]
  · intro hm hd hn
    cases hc : env.constructOk
    · simp [generateListing, innerRun, hc]
    · cases hs : env.startCwdOk
      · simp [generateListing, innerRun, hc, hs]
      · have hlist : listOkOf env = env.nlstOk := by
          simp [listOkOf, selectMethod, hm, hd]
        have h := crawlF_nolist env.cwdOk (listOkOf env) (normStart start)
          (by rw [hlist]; exact hn) [(normStart start, [], env.tree)]
        simp [generateListing, innerRun, hc, hs, h]
  · intro cwdOk listOk nsp cur rel f rest h
    exact crawlF_skip_cwd cwdOk listOk nsp cur rel f rest h
  · intro cwdOk listOk nsp cur rel f rest h h2
    exact crawlF_skip_list cwdOk listOk nsp cur rel f rest h h2

/-- Witness for C3: an environment with working probes but a failing
construction yields the empty, signal-free sequence. -/
theorem c3_generator_witness :
    generateListing envNoConstruct "/a/data".toList = ([], false) :=
  (c3_generator envNoConstruct "/a/data".toList).2.1 rfl

/-! ### C2: general round-trip of the traversal

First, lemmas about the path arithmetic of `main.py` lines 265-285 under the
well-formedness invariants, then the permutation between the breadth-first
crawl and the reference depth-first enumeration `pathsForest`. -/

theorem goodName_iff (n : Path) :
    goodName n = true ↔
      (n ≠ [] ∧ '/' ∉ n ∧ '\\' ∉ n ∧ n ≠ ['.'] ∧ n ≠ ['.', '.']) := by
  simp [goodName]

theorem goodForest_file_iff (n : Path) (r : Forest) :
    goodForest (Forest.file n r) = true ↔
      (goodName n = true ∧ n ∉ forestNames r ∧ goodForest r = true) := by
  simp [goodForest, Bool.and_eq_true, decide_eq_true_eq]
  tauto

theorem goodForest_dir_iff (n : Path) (c r : Forest) :
    goodForest (Forest.dir n c r) = true ↔
      (goodName n = true ∧ n ∉ forestNames r ∧ goodForest c = true
        ∧ goodForest r = true) := by
  simp [goodForest, Bool.and_eq_true, decide_eq_true_eq]
  tauto

theorem head?_append_left (s t : Path) (h : s ≠ []) : (s ++ t).head? = s.head? := by
  cases s with
  | nil => exact absurd rfl h
  | cons c cs => rfl

theorem getLast?_append_right (s t : Path) (h : t ≠ []) :
    (s ++ t).getLast? = t.getLast? := by
  rw [← List.head?_reverse, ← List.head?_reverse, List.reverse_append]
  exact head?_append_left t.reverse s.reverse (by simpa using h)

theorem head?_ne_slash (n : Path) (hne : n ≠ []) (hm : '/' ∉ n) :
    n.head? ≠ some '/' := by
  cases n with
  | nil => exact absurd rfl hne
  | cons c cs =>
    intro h
    simp only [List.head?_cons, Option.some.injEq] at h
    exact hm (by simp [h])

theorem getLast?_ne_slash (n : Path) (hne : n ≠ []) (hm : '/' ∉ n) :
    n.getLast? ≠ some '/' := by
  intro h
  have hx := List.getLast?_eq_getLast n hne
  rw [hx] at h
  simp only [Option.some.injEq] at h
  exact hm (h ▸ List.getLast_mem hne)

theorem replaceBS_id (s : Path) (h : '\\' ∉ s) : replaceBS s = s := by
  induction s with
  | nil => rfl
  | cons c cs ih =>
    simp only [List.mem_cons, not_or] at h
    simp only [replaceBS, List.map_cons]
    rw [if_neg (fun hh => h.1 hh.symm)]
    have := ih h.2
    simp only [replaceBS] at this
    rw [this]

theorem rstripSlash_id (s : Path) (hne : s ≠ []) (h : s.getLast? ≠ some '/') :
    rstripSlash s = s := by
  unfold rstripSlash
  cases hr : s.reverse with
  | nil => simp [List.reverse_eq_nil_iff.mp hr] at hne
  | cons x xs =>
    have hx : s.getLast? = some x := by
      rw [← List.head?_reverse, hr]
      rfl
    have hxne : ¬ (x = '/') := fun hh => h (by rw [hx, hh])
    rw [List.dropWhile_cons, if_neg (by simpa using hxne), ← hr,
      List.reverse_reverse]

theorem mem_rstripSlash (s : Path) (c : Char) (h : c ∈ rstripSlash s) : c ∈ s := by
  unfold rstripSlash at h
  rw [List.mem_reverse] at h
  have := (List.dropWhile_sublist _).subset h
  rwa [List.mem_reverse] at this

theorem goodNsp_normStart (start : Path) (h : '\\' ∉ start) :
    GoodNsp (normStart start) := by
  refine ⟨by simp [normStart], ?_, ?_⟩
  · simp [normStart, List.getLast?_concat]
  · intro hmem
    rw [normStart, List.mem_append] at hmem
    cases hmem with
    | inl hx => exact h (mem_rstripSlash start '\\' hx)
    | inr hx => simp at hx

theorem pyJoin_slash_end (a b : Path) (hne : a ≠ []) (ha : a.getLast? = some '/')
    (hb : b.head? ≠ some '/') : pyJoin a b = a ++ b := by
  unfold pyJoin
  rw [if_neg hb, if_neg hne, if_pos ha]

theorem pyJoin_nil_left (b : Path) (hb : b.head? ≠ some '/') : pyJoin [] b = b := by
  unfold pyJoin
  rw [if_neg hb, if_pos rfl]

theorem fullItem_eq (rel n : Path) (hrel : GoodRel rel) (hn : goodName n = true) :
    fullItem rel n = rel ++ n := by
  obtain ⟨hne, hslash, hbs, _, _⟩ := (goodName_iff n).mp hn
  cases hrel with
  | inl h0 =>
    subst h0
    unfold fullItem
    rw [pyJoin_nil_left n (head?_ne_slash n hne hslash)]
    simp [replaceBS_id n hbs]
  | inr hr =>
    obtain ⟨hh, hl, hb⟩ := hr
    have hrelne : rel ≠ [] := by
      intro h0
      rw [h0] at hl
      simp at hl
    unfold fullItem
    rw [pyJoin_slash_end rel n hrelne hl (head?_ne_slash n hne hslash)]
    exact replaceBS_id (rel ++ n) (by
      rw [List.mem_append]
      rintro (hx | hx)
      · exact hb hx
      · exact hbs hx)

theorem fullItem_head (rel n : Path) (hrel : GoodRel rel) (hn : goodName n = true) :
    (rel ++ n).head? ≠ some '/' := by
  obtain ⟨hne, hslash, _, _, _⟩ := (goodName_iff n).mp hn
  cases hrel with
  | inl h0 => subst h0; simpa using head?_ne_slash n hne hslash
  | inr hr =>
    obtain ⟨hh, hl, _⟩ := hr
    have hrelne : rel ≠ [] := by
      intro h0
      rw [h0] at hl
      simp at hl
    rw [head?_append_left rel n hrelne]
    exact hh

theorem fullItem_bs (rel n : Path) (hrel : GoodRel rel) (hn : goodName n = true) :
    '\\' ∉ rel ++ n := by
  obtain ⟨_, _, hbs, _, _⟩ := (goodName_iff n).mp hn
  rw [List.mem_append]
  rintro (hx | hx)
  · cases hrel with
    | inl h0 => subst h0; simp at hx
    | inr hr => exact hr.2.2 hx
  · exact hbs hx

theorem finalItem_eq (nsp rel n : Path) (hnsp : GoodNsp nsp) (hrel : GoodRel rel)
    (hn : goodName n = true) : finalItem nsp rel n = nsp ++ (rel ++ n) := by
  obtain ⟨hne, hl, hbs⟩ := hnsp
  unfold finalItem
  rw [fullItem_eq rel n hrel hn,
    pyJoin_slash_end nsp (rel ++ n) hne hl (fullItem_head rel n hrel hn)]
  exact replaceBS_id _ (by
    rw [List.mem_append]
    rintro (hx | hx)
    · exact hbs hx
    · exact fullItem_bs rel n hrel hn hx)

theorem dirFinal_eq (nsp rel n : Path) (hnsp : GoodNsp nsp) (hrel : GoodRel rel)
    (hn : goodName n = true) : dirFinal nsp rel n = nsp ++ (rel ++ n) ++ ['/'] := by
  obtain ⟨hne, hslash, _, _, _⟩ := (goodName_iff n).mp hn
  unfold dirFinal
  rw [finalItem_eq nsp rel n hnsp hrel hn]
  rw [rstripSlash_id (nsp ++ (rel ++ n)) (by simp [hne]) ?hlast]
  case hlast =>
    rw [getLast?_append_right nsp (rel ++ n) (by simp [hne]),
      getLast?_append_right rel n hne]
    exact getLast?_ne_slash n hne hslash

theorem goodRel_next (rel n : Path) (hrel : GoodRel rel) (hn : goodName n = true) :
    GoodRel (fullItem rel n ++ ['/']) := by
  obtain ⟨hne, _, _, _, _⟩ := (goodName_iff n).mp hn
  rw [fullItem_eq rel n hrel hn]
  right
  refine ⟨?_, ?_, ?_⟩
  · rw [head?_append_left (rel ++ n) ['/'] (by simp [hne])]
    exact fullItem_head rel n hrel hn
  · exact List.getLast?_concat _
  · intro hx
    rw [List.mem_append] at hx
    cases hx with
    | inl hx => exact fullItem_bs rel n hrel hn hx
    | inr hx => simp at hx

/-- Every reference path below prefix `pre` is `pre` followed by the name of
one top-level entry and a suffix that is empty or separator-initial. -/
theorem pathsForest_shape (f : Forest) :
    ∀ pre p, p ∈ pathsForest pre f →
      ∃ nm st, nm ∈ forestNames f ∧ p = pre ++ (nm ++ st)
        ∧ (st = [] ∨ st.head? = some '/') := by
  induction f with
  | nil => intro pre p hp; simp [pathsForest] at hp
  | file n r ih =>
    intro pre p hp
    simp only [pathsForest, List.mem_cons] at hp
    cases hp with
    | inl h =>
      exact ⟨n, [], by simp [forestNames], by simp [h], Or.inl rfl⟩
    | inr h =>
      obtain ⟨nm, st, hmem, heq, hst⟩ := ih pre p h
      exact ⟨nm, st, by simp [forestNames, hmem], heq, hst⟩
  | dir n c r ihc ihr =>
    intro pre p hp
    simp only [pathsForest, List.mem_cons, List.mem_append] at hp
    rcases hp with h | h | h
    · refine ⟨n, ['/'], by simp [forestNames], ?_, Or.inr rfl⟩
      rw [h]
      simp [List.append_assoc]
    · obtain ⟨nm, st, hmem, heq, hst⟩ := ihc (pre ++ n ++ ['/']) p h
      refine ⟨n, '/' :: (nm ++ st), by simp [forestNames], ?_, Or.inr rfl⟩
      rw [heq]
      simp [List.append_assoc]
    · obtain ⟨nm, st, hmem, heq, hst⟩ := ihr pre p h
      exact ⟨nm, st, by simp [forestNames, hmem], heq, hst⟩

theorem forestNames_good (f : Forest) (hg : goodForest f = true) :
    ∀ nm ∈ forestNames f, goodName nm = true := by
  induction f with
  | nil => intro nm h; simp [forestNames] at h
  | file n r ih =>
    obtain ⟨hn, _, hr⟩ := (goodForest_file_iff n r).mp hg
    intro nm h
    simp only [forestNames, List.mem_cons] at h
    cases h with
    | inl h => rw [h]; exact hn
    | inr h => exact ih hr nm h
  | dir n c r ihc ihr =>
    obtain ⟨hn, _, _, hr⟩ := (goodForest_dir_iff n c r).mp hg
    intro nm h
    simp only [forestNames, List.mem_cons] at h
    cases h with
    | inl h => rw [h]; exact hn
    | inr h => exact ihr hr nm h

/-- Two name-plus-suffix decompositions with separator-free names and
empty-or-separator-initial suffixes agree on the name. -/
theorem sep_append_inj :
    ∀ (n1 n2 s1 s2 : Path), n1 ++ s1 = n2 ++ s2 → '/' ∉ n1 → '/' ∉ n2 →
      (s1 = [] ∨ s1.head? = some '/') → (s2 = [] ∨ s2.head? = some '/') →
      n1 = n2 := by
  intro n1
  induction n1 with
  | nil =>
    intro n2 s1 s2 heq _ h2 hs1 _
    cases n2 with
    | nil => rfl
    | cons b t2 =>
      exfalso
      simp only [List.nil_append] at heq
      cases hs1 with
      | inl h0 => rw [h0] at heq; exact List.cons_ne_nil b (t2 ++ s2) heq.symm
      | inr h0 =>
        rw [heq] at h0
        simp only [List.cons_append, List.head?_cons, Option.some.injEq] at h0
        exact h2 (by simp [h0])
  | cons a t1 ih =>
    intro n2 s1 s2 heq h1 h2 hs1 hs2
    cases n2 with
    | nil =>
      exfalso
      simp only [List.nil_append] at heq
      cases hs2 with
      | inl h0 => rw [h0] at heq; exact List.cons_ne_nil a (t1 ++ s1) heq
      | inr h0 =>
        rw [← heq] at h0
        simp only [List.cons_append, List.head?_cons, Option.some.injEq] at h0
        exact h1 (by simp [h0])
    | cons b t2 =>
      simp only [List.cons_append, List.cons.injEq] at heq
      obtain ⟨hab, htail⟩ := heq
      have := ih t2 s1 s2 htail (fun hx => h1 (List.mem_cons_of_mem a hx))
        (fun hx => h2 (List.mem_cons_of_mem b hx)) hs1 hs2
      rw [hab, this]

/-- Reference paths are strictly longer than their prefix. -/
theorem pathsForest_longer (f : Forest) (pre p : Path) (hg : goodForest f = true)
    (hp : p ∈ pathsForest pre f) : pre.length < p.length := by
  obtain ⟨nm, st, hmem, heq, _⟩ := pathsForest_shape f pre p hp
  have hnm := (goodName_iff nm).mp (forestNames_good f hg nm hmem)
  have : nm.length ≠ 0 := by
    intro h0
    exact hnm.1 (List.length_eq_zero.mp h0)
  rw [heq]
  simp only [List.length_append]
  omega

/-- Under well-formedness (distinct sibling names at every level), the
reference enumeration has no duplicates. -/
theorem pathsForest_nodup (f : Forest) :
    ∀ pre, goodForest f = true → (pathsForest pre f).Nodup := by
  induction f with
  | nil => intro pre _; simp [pathsForest]
  | file n r ih =>
    intro pre hg
    obtain ⟨hn, hnot, hr⟩ := (goodForest_file_iff n r).mp hg
    simp only [pathsForest, List.nodup_cons]
    constructor
    · intro hmem
      obtain ⟨nm, st, hm, heq, hst⟩ := pathsForest_shape r pre (pre ++ n) hmem
      have hcancel : n ++ [] = nm ++ st := by
        rw [List.append_nil]
        simpa using heq
      have hnm := (goodName_iff nm).mp (forestNames_good r hr nm hm)
      have hnn := (goodName_iff n).mp hn
      have : n = nm := sep_append_inj n nm [] st hcancel hnn.2.1 hnm.2.1
        (Or.inl rfl) hst
      exact hnot (this ▸ hm)
    · exact ih pre hr
  | dir n c r ihc ihr =>
    intro pre hg
    obtain ⟨hn, hnot, hc, hr⟩ := (goodForest_dir_iff n c r).mp hg
    have hnn := (goodName_iff n).mp hn
    simp only [pathsForest, List.nodup_cons, List.nodup_append, List.mem_append]
    refine ⟨?_, ihc _ hc, ihr pre hr, ?_⟩
    · rintro (hmem | hmem)
      · exact absurd (pathsForest_longer c _ _ hc hmem) (lt_irrefl _)
      · obtain ⟨nm, st, hm, heq, hst⟩ :=
          pathsForest_shape r pre (pre ++ n ++ ['/']) hmem
        have hcancel : n ++ ['/'] = nm ++ st := by
          rw [List.append_assoc] at heq
          simpa using heq
        have hnm := (goodName_iff nm).mp (forestNames_good r hr nm hm)
        have : n = nm := sep_append_inj n nm ['/'] st hcancel hnn.2.1 hnm.2.1
          (Or.inr rfl) hst
        exact hnot (this ▸ hm)
    · intro p hpc hpr
      obtain ⟨nm1, st1, hm1, heq1, hst1⟩ :=
        pathsForest_shape c (pre ++ n ++ ['/']) p hpc
      obtain ⟨nm2, st2, hm2, heq2, hst2⟩ := pathsForest_shape r pre p hpr
      have h1 : p = pre ++ (n ++ ('/' :: (nm1 ++ st1))) := by
        rw [heq1]
        simp [List.append_assoc]
      have hkey : n ++ ('/' :: (nm1 ++ st1)) = nm2 ++ st2 := by
        have h2 := h1.symm.trans heq2
        simpa using h2
      have hnm2 := (goodName_iff nm2).mp (forestNames_good r hr nm2 hm2)
      have heqn : n = nm2 := sep_append_inj n nm2 ('/' :: (nm1 ++ st1)) st2 hkey
        hnn.2.1 hnm2.2.1 (Or.inr rfl) hst2
      exact hnot (heqn ▸ hm2)

theorem endsSlash_concat (s : Path) : endsSlash (s ++ ['/']) = true := by
  simp only [endsSlash]
  exact decide_eq_true (List.getLast?_concat s)

theorem endsSlash_no (pre n : Path) (hne : n ≠ []) (hslash : '/' ∉ n) :
    endsSlash (pre ++ n) = false := by
  simp only [endsSlash]
  apply decide_eq_false
  rw [getLast?_append_right pre n hne]
  exact getLast?_ne_slash n hne hslash

/-- Directory reference paths end in the separator, file paths do not, and
their counts are the directory and file counts of the tree. -/
theorem pathsForest_counts (f : Forest) :
    ∀ pre, goodForest f = true →
      (pathsForest pre f).countP endsSlash = countDirs f
      ∧ (pathsForest pre f).countP (fun p => !endsSlash p) = countFiles f := by
  induction f with
  | nil => intro pre _; simp [pathsForest, countDirs, countFiles]
  | file n r ih =>
    intro pre hg
    obtain ⟨hn, _, hr⟩ := (goodForest_file_iff n r).mp hg
    obtain ⟨hne, hslash, _, _, _⟩ := (goodName_iff n).mp hn
    have hes := endsSlash_no pre n hne hslash
    obtain ⟨ihd, ihf⟩ := ih pre hr
    constructor
    · simp only [pathsForest, List.countP_cons, hes, countDirs, ihd]
      simp
    · simp only [pathsForest, List.countP_cons, hes, countFiles, ihf]
      simp
      omega
  | dir n c r ihc ihr =>
    intro pre hg
    obtain ⟨hn, _, hc, hr⟩ := (goodForest_dir_iff n c r).mp hg
    have hes := endsSlash_concat (pre ++ n)
    obtain ⟨ihcd, ihcf⟩ := ihc (pre ++ n ++ ['/']) hc
    obtain ⟨ihrd, ihrf⟩ := ihr pre hr
    constructor
    · simp only [pathsForest, List.countP_cons, List.countP_append, hes,
        countDirs, ihcd, ihrd]
      simp
      omega
    · simp only [pathsForest, List.countP_cons, List.countP_append, hes,
        countFiles, ihcf, ihrf]
      simp

theorem stepEnq_qSize (cur rel : Path) (f : Forest) :
    qSize (stepEnq cur rel f) + forestLen f = forestSize f := by
  induction f with
  | nil => simp [stepEnq, forestLen, forestSize, qSize]
  | file n r ih =>
    simp only [stepEnq, forestLen, forestSize, qSize] at *
    omega
  | dir n c r ihc ihr =>
    simp only [stepEnq, forestLen, forestSize, qSize, List.map_cons,
      List.sum_cons] at *
    omega

theorem stepEnq_length (cur rel : Path) (f : Forest) :
    (stepEnq cur rel f).length ≤ forestLen f := by
  induction f with
  | nil => simp [stepEnq, forestLen]
  | file n r ih =>
    simp only [stepEnq, forestLen]
    omega
  | dir n c r ihc ihr =>
    simp only [stepEnq, forestLen, List.length_cons]
    omega

theorem forestLen_pos (f : Forest) (h : f ≠ Forest.nil) : 1 ≤ forestLen f := by
  cases f with
  | nil => exact absurd rfl h
  | file n r => simp [forestLen]
  | dir n c r => simp [forestLen]

theorem qSize_append (a b : List QItem) : qSize (a ++ b) = qSize a + qSize b := by
  simp [qSize]

theorem qPaths_append (nsp : Path) :
    ∀ a b, qPaths nsp (a ++ b) = qPaths nsp a ++ qPaths nsp b := by
  intro a b
  induction a with
  | nil => simp [qPaths]
  | cons it rest ih => simp [qPaths, ih, List.append_assoc]

theorem stepEnq_inv (cur rel : Path) (hrel : GoodRel rel) :
    ∀ f : Forest, goodForest f = true → InvQ (stepEnq cur rel f) := by
  intro f
  induction f with
  | nil => intro _ it hit; simp [stepEnq] at hit
  | file n r ih =>
    intro hf
    obtain ⟨_, _, hr⟩ := (goodForest_file_iff n r).mp hf
    intro it hit
    simp only [stepEnq] at hit
    exact ih hr it hit
  | dir n c r ihc ihr =>
    intro hf
    obtain ⟨hn, _, hc, hr⟩ := (goodForest_dir_iff n c r).mp hf
    intro it hit
    simp only [stepEnq, List.mem_cons] at hit
    cases hit with
    | inl h =>
      rw [h]
      exact ⟨goodRel_next rel n hrel hn, hc⟩
    | inr h => exact ihr hr it h

/-- The reference paths of one dequeued directory are a permutation of the
items it yields followed by the reference paths of the directories it
enqueues. -/
theorem step_perm (nsp rel cur : Path) (hnsp : GoodNsp nsp) (hrel : GoodRel rel) :
    ∀ f : Forest, goodForest f = true →
      (pathsForest (nsp ++ rel) f).Perm
        (stepOut nsp rel f ++ qPaths nsp (stepEnq cur rel f)) := by
  intro f
  induction f with
  | nil => intro _; simp [pathsForest, stepOut, stepEnq, qPaths]
  | file n r ih =>
    intro hf
    obtain ⟨hn, _, hr⟩ := (goodForest_file_iff n r).mp hf
    have hfin : finalItem nsp rel n = nsp ++ rel ++ n := by
      rw [finalItem_eq nsp rel n hnsp hrel hn, List.append_assoc]
    simp only [pathsForest, stepOut, stepEnq, hfin, List.cons_append]
    exact List.Perm.cons _ (ih hr)
  | dir n c r ihc ihr =>
    intro hf
    obtain ⟨hn, _, hc, hr⟩ := (goodForest_dir_iff n c r).mp hf
    have hdir : dirFinal nsp rel n = nsp ++ rel ++ n ++ ['/'] := by
      rw [dirFinal_eq nsp rel n hnsp hrel hn]
      simp [List.append_assoc]
    have hpre : nsp ++ (fullItem rel n ++ ['/']) = nsp ++ rel ++ n ++ ['/'] := by
      rw [fullItem_eq rel n hrel hn]
      simp [List.append_assoc]
    simp only [pathsForest, stepOut, stepEnq, qPaths, hdir, hpre, List.cons_append]
    apply List.Perm.cons
    exact (List.Perm.append_left _ (ihr hr)).trans
      (List.perm_append_comm_assoc _ _ _)

/-- The breadth-first crawl emits a permutation of the reference enumeration
of its frontier. -/
theorem crawl_perm (nsp : Path) (hnsp : GoodNsp nsp) :
    ∀ N q, 2 * qSize q + q.length ≤ N → InvQ q →
      (crawl nsp q).Perm (qPaths nsp q) := by
  intro N
  induction N with
  | zero =>
    intro q hN hq
    cases q with
    | nil => simp [crawl, qPaths]
    | cons it rest =>
      exfalso
      simp only [List.length_cons] at hN
      omega
  | succ N ihN =>
    intro q hN hq
    cases q with
    | nil => simp [crawl, qPaths]
    | cons it rest =>
      obtain ⟨cur, rel, f⟩ := it
      have hitem := hq (cur, rel, f) (List.mem_cons_self _ _)
      have hrest : InvQ rest := fun x hx => hq x (List.mem_cons_of_mem _ hx)
      have henq := stepEnq_inv cur rel hitem.1 f hitem.2
      have hinv2 : InvQ (rest ++ stepEnq cur rel f) := by
        intro x hx
        rw [List.mem_append] at hx
        cases hx with
        | inl h => exact hrest x h
        | inr h => exact henq x h
      have hm1 := stepEnq_qSize cur rel f
      have hm2 := stepEnq_length cur rel f
      have hmeas : 2 * qSize (rest ++ stepEnq cur rel f)
          + (rest ++ stepEnq cur rel f).length ≤ N := by
        rw [qSize_append, List.length_append]
        have hN' : 2 * (forestSize f + qSize rest) + (rest.length + 1) ≤ N + 1 := by
          have hx : qSize ((cur, rel, f) :: rest) = forestSize f + qSize rest := by
            simp [qSize]
          rw [hx, List.length_cons] at hN
          exact hN
        by_cases hfnil : f = Forest.nil
        · subst hfnil
          simp only [stepEnq, qSize, List.map_nil, List.sum_nil, List.length_nil,
            forestSize] at *
          omega
        · have hlen := forestLen_pos f hfnil
          omega
      have ih := ihN (rest ++ stepEnq cur rel f) hmeas hinv2
      have hcrawl : crawl nsp ((cur, rel, f) :: rest)
          = stepOut nsp rel f ++ crawl nsp (rest ++ stepEnq cur rel f) := by
        simp [crawl]
      have hqp2 : qPaths nsp (rest ++ stepEnq cur rel f)
          = qPaths nsp rest ++ qPaths nsp (stepEnq cur rel f) :=
        qPaths_append nsp rest (stepEnq cur rel f)
      rw [hcrawl]
      show (stepOut nsp rel f ++ crawl nsp (rest ++ stepEnq cur rel f)).Perm
        (pathsForest (nsp ++ rel) f ++ qPaths nsp rest)
      have s1 : (stepOut nsp rel f ++ crawl nsp (rest ++ stepEnq cur rel f)).Perm
          (stepOut nsp rel f
            ++ (qPaths nsp rest ++ qPaths nsp (stepEnq cur rel f))) :=
        List.Perm.append_left _ (hqp2 ▸ ih)
      have s2 := List.perm_append_comm_assoc (stepOut nsp rel f)
        (qPaths nsp rest) (qPaths nsp (stepEnq cur rel f))
      have s3 : (qPaths nsp rest
          ++ (stepOut nsp rel f ++ qPaths nsp (stepEnq cur rel f))).Perm
          (qPaths nsp rest ++ pathsForest (nsp ++ rel) f) :=
        List.Perm.append_left _
          ((step_perm nsp rel cur hnsp hitem.1 f hitem.2).symm)
      exact ((s1.trans s2).trans s3).trans List.perm_append_comm

/-- C2 counterexample: starting at `"/pub"` over a tree holding the single
file `f.txt`, the crawl yields `/pub/f.txt`, not the bare ancestor-name join
`f.txt` the claim describes: yielded paths carry the normalized start path as
a prefix. -/
theorem c2_counterexample :
    crawlTop "/pub".toList exTree2 = ["/pub/f.txt".toList]
    ∧ pathsForest [] exTree2 = ["f.txt".toList]
    ∧ ("/pub/f.txt".toList : Path) ≠ "f.txt".toList := by
  refine ⟨?_, by decide, by decide⟩
  simp only [crawlTop, crawl, stepOut, stepEnq, exTree2, List.nil_append,
    List.append_nil, List.cons_append]
  decide

/-- C2 (corrected): over a finite tree with well-formed, sibling-distinct
names in which every call succeeds, the crawl yields a permutation of the
reference enumeration — each path being the normalized start path followed by
the names of the item's ancestors joined by single separators, with a
trailing separator exactly for directories — with `countDirs f` separator
terminated items, `countFiles f` others, and no duplicates. -/
theorem c2_traversal (start : Path) (f : Forest)
    (hbs : '\\' ∉ start) (hg : goodForest f = true) :
    (crawlTop start f).Perm (pathsForest (normStart start) f)
    ∧ (crawlTop start f).countP endsSlash = countDirs f
    ∧ (crawlTop start f).countP (fun p => !endsSlash p) = countFiles f
    ∧ (crawlTop start f).Nodup := by
  have hnsp := goodNsp_normStart start hbs
  have hinv : InvQ [(normStart start, [], f)] := by
    intro it hit
    simp only [List.mem_singleton] at hit
    subst hit
    exact ⟨Or.inl rfl, hg⟩
  have hperm := crawl_perm (normStart start) hnsp
    (2 * qSize [(normStart start, [], f)] + 1) [(normStart start, [], f)]
    (by simp) hinv
  have hq : qPaths (normStart start) [(normStart start, [], f)]
      = pathsForest (normStart start) f := by
    simp [qPaths]
  rw [hq] at hperm
  have hcounts := pathsForest_counts f (normStart start) hg
  have hnodup := pathsForest_nodup f (normStart start) hg
  unfold crawlTop
  refine ⟨hperm, ?_, ?_, ?_⟩
  · rw [hperm.countP_eq]
    exact hcounts.1
  · rw [hperm.countP_eq]
    exact hcounts.2
  · exact hperm.nodup_iff.mpr hnodup

/-- Witness for C2 on the tree with directory `a` (containing file `b`, the
empty directory `c` and file `d`) beside the file `e`, started at
`"/data"`: 2 directory items, 4 file items, no duplicates. -/
theorem c2_traversal_witness :
    (crawlTop "/data".toList exTree3).Perm (pathsForest (normStart "/data".toList) exTree3)
    ∧ (crawlTop "/data".toList exTree3).countP endsSlash = countDirs exTree3
    ∧ (crawlTop "/data".toList exTree3).countP (fun p => !endsSlash p)
        = countFiles exTree3
    ∧ (crawlTop "/data".toList exTree3).Nodup :=
  c2_traversal "/data".toList exTree3 (by decide) (by decide)

end FtpScout
